import Mathlib

/-!
Verification of the elite-scripts market-scanning core.

The Python sources are embedded shallowly:

* `market.py` `equal_volume_shells` / `_which_bin` — the spatial shell
  planner, embedded as the real-valued radius sequence `radii` and the
  bin-selection predicate `whichBinIs`.
* `market.py` `DB` / `invalidate` / `markets_in_system` /
  `request_near` / `request_status` — the redis-backed freshness cache,
  scan orchestrator and status report, embedded as pure state-passing
  functions over association lists.
* `listener/project/eddn_listener.py` and
  `elite-sell/listener/project/station_dump.py` `save_to_mongo` — the
  feed consumer and bulk-dump loader writes, embedded with MongoDB
  `update_one`/upsert semantics over a list of documents.
* `nearby_sale.py` / `project/main.py` `hypothetical_sale` and
  `elite-sell/market.py` `best_sell_stations` — the sale ranker.
* `edsm.py` `_get_raw` and `market.py` `_get_with_http` — the
  rate-limited fetch layer, embedded as sleep/retry traces.

Machine floats are modelled as exact reals (for the geometry) or
rationals (for the sleep intervals).
-/

namespace EliteScripts

/-! ## SpatialScanPlanner: `equal_volume_shells` (market.py lines 187-195)

`equal_volume_shells(r)` yields `(0, r)` and then iterates
`r2 = (2*r1**3 - r0**3)**(1/3)`.  `radii r n` is the n-th shell
boundary produced by that iteration. -/

/-- Real cube root via `rpow`, the embedding of Python `x**(1/3)`. -/
noncomputable def cuberoot (x : ℝ) : ℝ := x ^ ((1 : ℝ) / 3)

/-- Shell boundary radii generated by `equal_volume_shells`:
`r0 = 0`, `r1 = r`, `r_{n+2} = (2*r_{n+1}^3 - r_n^3)^(1/3)`. -/
noncomputable def radii (r : ℝ) : ℕ → ℝ
  | 0 => 0
  | 1 => r
  | n + 2 => cuberoot (2 * radii r (n + 1) ^ 3 - radii r n ^ 3)

/-- The n-th pair yielded by the `equal_volume_shells` generator. -/
noncomputable def equal_volume_shells (r : ℝ) (n : ℕ) : ℝ × ℝ :=
  (radii r n, radii r (n + 1))

theorem cuberoot_cube {x : ℝ} (hx : 0 ≤ x) : cuberoot x ^ 3 = x := by
  rw [cuberoot, ← Real.rpow_natCast (x ^ ((1 : ℝ) / 3)) 3, ← Real.rpow_mul hx]
  norm_num

theorem cuberoot_nonneg {x : ℝ} (hx : 0 ≤ x) : 0 ≤ cuberoot x :=
  Real.rpow_nonneg hx _

theorem radii_cube_and_nonneg (r : ℝ) (hr : 0 ≤ r) :
    ∀ n : ℕ, radii r n ^ 3 = n * r ^ 3 ∧ 0 ≤ radii r n := by
  intro n
  induction n using Nat.strong_induction_on with
  | _ n ih =>
    match n with
    | 0 => simp [radii]
    | 1 => simp [radii, hr]
    | n + 2 =>
      have h1 := ih (n + 1) (by omega)
      have h0 := ih n (by omega)
      have harg : (0 : ℝ) ≤ 2 * radii r (n + 1) ^ 3 - radii r n ^ 3 := by
        rw [h1.1, h0.1]
        have : (0 : ℝ) ≤ r ^ 3 := by positivity
        push_cast
        nlinarith
      refine ⟨?_, ?_⟩
      · rw [radii, cuberoot_cube harg, h1.1, h0.1]
        push_cast
        ring
      · rw [radii]
        exact cuberoot_nonneg harg

theorem radii_cube (r : ℝ) (hr : 0 ≤ r) (n : ℕ) :
    radii r n ^ 3 = n * r ^ 3 :=
  (radii_cube_and_nonneg r hr n).1

theorem radii_nonneg (r : ℝ) (hr : 0 ≤ r) (n : ℕ) : 0 ≤ radii r n :=
  (radii_cube_and_nonneg r hr n).2

theorem radii_strictMono (r : ℝ) (hr : 0 < r) : StrictMono (radii r) := by
  intro m n hmn
  have hm := radii_nonneg r hr.le m
  have hn := radii_nonneg r hr.le n
  rw [← pow_lt_pow_iff_left hm hn (n := 3) (by norm_num),
    radii_cube r hr.le, radii_cube r hr.le]
  have hr3 : (0 : ℝ) < r ^ 3 := by positivity
  have : (m : ℝ) < n := by exact_mod_cast hmn
  nlinarith

/-- C2: consecutive shell boundaries of `equal_volume_shells` satisfy
`r_{i+1}^3 - r_i^3 = r1^3` — every shell encloses the volume of the
initial sphere. -/
theorem equal_volume_shells_equal_volume (r : ℝ) (hr : 0 < r) (i : ℕ) :
    (equal_volume_shells r i).2 ^ 3 - (equal_volume_shells r i).1 ^ 3
      = r ^ 3 := by
  show radii r (i + 1) ^ 3 - radii r i ^ 3 = r ^ 3
  rw [radii_cube r hr.le, radii_cube r hr.le]
  push_cast
  ring

/-- Witness for C2 at `r = 15`, shell index 2. -/
theorem equal_volume_shells_equal_volume_witness :
    (0 : ℝ) < 15 ∧
      (equal_volume_shells 15 2).2 ^ 3 - (equal_volume_shells 15 2).1 ^ 3
        = 15 ^ 3 :=
  ⟨by norm_num, equal_volume_shells_equal_volume 15 (by norm_num) 2⟩

/-! ## `_which_bin` (market.py lines 267-273)

`_which_bin` returns `next(i for (i, (r0, r1)) in enumerate(shells)
if r0 <= system["distance"] <= r1)`: the FIRST shell index whose
bounds (both inclusive) contain the distance. -/

/-- The membership test of `_which_bin`: `r0 <= d <= r1`, both bounds
inclusive. -/
def inShellCode (r : ℝ) (i : ℕ) (d : ℝ) : Prop :=
  radii r i ≤ d ∧ d ≤ radii r (i + 1)

/-- `_which_bin` returns bin `i` for distance `d` iff `i` is the first
index passing the inclusive test (Python `next` over `enumerate`). -/
def whichBinIs (r : ℝ) (d : ℝ) (i : ℕ) : Prop :=
  inShellCode r i d ∧ ∀ j < i, ¬ inShellCode r j d

/-- The spec's claimed half-open rule: `r_i ≤ d < r_{i+1}`,
lower-inclusive, upper-exclusive. -/
def inShellSpecRule (r : ℝ) (i : ℕ) (d : ℝ) : Prop :=
  radii r i ≤ d ∧ d < radii r (i + 1)

/-- C7 counterexample: with initial radius 15 and a system at distance
exactly 15 (the first shell boundary), `_which_bin` returns bin 0,
but the claimed half-open rule puts the system in shell 1, not 0. -/
theorem which_bin_boundary_counterexample :
    whichBinIs 15 15 0 ∧ ¬ inShellSpecRule 15 0 15 ∧
      inShellSpecRule 15 1 15 := by
  have h0 : radii 15 0 = 0 := by simp [radii]
  have h1 : radii 15 1 = 15 := by simp [radii]
  have h2 : radii 15 1 < radii 15 2 :=
    radii_strictMono 15 (by norm_num) (by norm_num)
  refine ⟨⟨⟨?_, ?_⟩, ?_⟩, ?_, ?_, ?_⟩
  · rw [h0]; norm_num
  · rw [h1]
  · intro j hj; omega
  · rintro ⟨-, hlt⟩
    have he : radii 15 (0 + 1) = 15 := h1
    rw [he] at hlt
    exact lt_irrefl _ hlt
  · rw [h1]
  · show (15 : ℝ) < radii 15 (1 + 1)
    rw [← h1]
    exact h2

/-- C7 amended: for `r > 0`, `_which_bin` places a distance `d` in bin
`i` exactly when `r_i < d ≤ r_{i+1}` (lower-EXCLUSIVE,
upper-INCLUSIVE), except that `d = 0` goes to bin 0; in particular a
system exactly on a shell boundary is assigned to the inner shell. -/
theorem which_bin_characterization (r : ℝ) (hr : 0 < r) (d : ℝ) (i : ℕ) :
    whichBinIs r d i ↔
      (radii r i < d ∧ d ≤ radii r (i + 1)) ∨ (i = 0 ∧ d = 0) := by
  constructor
  · rintro ⟨⟨hlo, hhi⟩, hfirst⟩
    match i with
    | 0 =>
      rcases eq_or_lt_of_le hlo with h | h
      · right
        refine ⟨rfl, ?_⟩
        have : radii r 0 = 0 := by simp [radii]
        rw [this] at h
        exact h.symm
      · left
        exact ⟨h, hhi⟩
    | k + 1 =>
      left
      have hk := hfirst k (by omega)
      have hklo : radii r k ≤ d :=
        le_trans ((radii_strictMono r hr).monotone (by omega : k ≤ k + 1))
          hlo
      have : ¬ d ≤ radii r (k + 1) := fun hle => hk ⟨hklo, hle⟩
      exact ⟨lt_of_not_le this, hhi⟩
  · rintro (⟨hlo, hhi⟩ | ⟨hi, hd⟩)
    · refine ⟨⟨le_of_lt hlo, hhi⟩, ?_⟩
      intro j hj ⟨_, hjhi⟩
      have : radii r (j + 1) ≤ radii r i :=
        (radii_strictMono r hr).monotone (by omega)
      exact absurd (le_trans hjhi this) (not_le_of_lt hlo)
    · subst hi; subst hd
      have h0 : radii r 0 = 0 := by simp [radii]
      have h1 : radii r 1 = r := by simp [radii]
      refine ⟨⟨?_, ?_⟩, ?_⟩
      · rw [h0]
      · rw [h1]; exact hr.le
      · intro j hj; omega

/-- Witness for C7's amended theorem at `r = 15`, `d = 15`: the
boundary distance 15 is assigned to bin 0 (the inner shell). -/
theorem which_bin_characterization_witness :
    (0 : ℝ) < 15 ∧ whichBinIs 15 15 0 :=
  ⟨by norm_num,
    (which_bin_characterization 15 (by norm_num) 15 0).mpr
      (Or.inl ⟨by simp [radii], by simp [radii]⟩)⟩

/-! ## FreshnessCache state (market.py)

The redis `markets` namespace holds market snapshots keyed
`(system, station)` and dirty flags keyed `("dirty", system)`.  The
snapshot payload (a JSON dict) is kept abstract as a type parameter. -/

/-- A station record as kept by `stations_in_system` (market.py
lines 209-218): the `wanted_keys` name, distanceToArrival, updateTime
and type. -/
structure Station where
  name : String
  distanceToArrival : ℚ
  updateTime : String
  type : String

/-- The redis market-db contents: snapshot entries and dirty flags. -/
structure MarketState (α : Type) where
  markets : String × String → Option α
  dirty : String → Option Bool

/-- The station types excluded by `markets_in_system` (market.py
lines 240-243). -/
def disallowed_types : List String :=
  ["Odyssey Settlement", "Fleet Carrier"]

/-- `invalidate(system_name, station_name)` (market.py lines 262-264):
delete the `(system, station)` market entry if present, and
unconditionally set the `("dirty", system_name)` flag to True. -/
def invalidate {α : Type} (system_name station_name : String)
    (st : MarketState α) : MarketState α where
  markets := fun k =>
    if k = (system_name, station_name) then none else st.markets k
  dirty := fun s => if s = system_name then some true else st.dirty s

/-- One station step of `markets_in_system`'s `_market` closure
(market.py lines 250-256): if the `(system, station)` key is not
populated, fetch the market and store it; the dirty flag is not
touched. -/
def marketStep {α : Type} (fetch : String → String → α)
    (system_name : String) (st : MarketState α) (station : Station) :
    MarketState α :=
  if (st.markets (system_name, station.name)).isSome then st
  else
    { st with
      markets := fun k =>
        if k = (system_name, station.name) then
          some (fetch system_name station.name)
        else st.markets k }

/-- `markets_in_system` (market.py lines 239-259): filter out
disallowed station types, then populate each remaining station's
market.  The thread pool is modelled as sequential application; no
step writes the dirty flag. -/
def markets_in_system {α : Type} (fetch : String → String → α)
    (system_name : String) (stations : List Station)
    (st : MarketState α) : MarketState α :=
  (stations.filter (fun s => s.type ∉ disallowed_types)).foldl
    (marketStep fetch system_name) st

/-- Per-system completion classification of `request_status`
(market.py lines 321-331): dirty True ↦ Partial, dirty False ↦
Complete, unset ↦ Pending. -/
def systemCompletion {α : Type} (st : MarketState α)
    (system_name : String) : String :=
  match st.dirty system_name with
  | some true => "Partial"
  | some false => "Complete"
  | none => "Pending"

theorem marketStep_dirty {α : Type} (fetch : String → String → α)
    (system_name : String) (st : MarketState α) (station : Station) :
    (marketStep fetch system_name st station).dirty = st.dirty := by
  unfold marketStep
  split <;> rfl

theorem foldl_marketStep_dirty {α : Type} (fetch : String → String → α)
    (system_name : String) (l : List Station) :
    ∀ st : MarketState α,
      (l.foldl (marketStep fetch system_name) st).dirty = st.dirty := by
  induction l with
  | nil => intro st; rfl
  | cons s l ih =>
    intro st
    rw [List.foldl_cons, ih, marketStep_dirty]

/-- C3: the populator never clears the dirty aggregate.  First
conjunct: `markets_in_system` leaves every dirty flag untouched.
Remaining conjuncts evaluate the failing input: starting from an empty
store, a feed invalidation of (S, A) followed by a fully successful
population of system S's only station stores the snapshot, yet leaves
the dirty flag True, so the system reads back "Partial", never
"Complete". -/
theorem populate_does_not_clear_dirty :
    (∀ (fetch : String → String → ℕ) (system_name : String)
        (stations : List Station) (st : MarketState ℕ),
        (markets_in_system fetch system_name stations st).dirty
          = st.dirty)
    ∧ (markets_in_system (fun _ _ => 0) "S"
          [⟨"A", 0, "2021-01-01", "Coriolis Starport"⟩]
          (invalidate "S" "A"
            ⟨fun _ => none, fun _ => none⟩)).markets ("S", "A")
        = some 0
    ∧ (markets_in_system (fun _ _ => 0) "S"
          [⟨"A", 0, "2021-01-01", "Coriolis Starport"⟩]
          (invalidate "S" "A"
            ⟨fun _ => none, fun _ => none⟩)).dirty "S"
        = some true
    ∧ systemCompletion
          (markets_in_system (fun _ _ => 0) "S"
            [⟨"A", 0, "2021-01-01", "Coriolis Starport"⟩]
            (invalidate "S" "A"
              ⟨fun _ => none, fun _ => none⟩)) "S"
        = "Partial" := by
  refine ⟨?_, rfl, rfl, rfl⟩
  intro fetch system_name stations st
  exact foldl_marketStep_dirty fetch system_name _ st

/-- C4 counterexample: on a never-populated key (market entry absent,
dirty flag unset, so state Unknown/Pending), `invalidate` is NOT a
no-op: it sets the system's dirty flag to True and the derived state
becomes Partial/Dirty, a transition from a non-Clean state. -/
theorem invalidate_unknown_counterexample :
    ((⟨fun _ => none, fun _ => none⟩ : MarketState ℕ).markets ("S", "A")
        = none)
    ∧ ((⟨fun _ => none, fun _ => none⟩ : MarketState ℕ).dirty "S" = none)
    ∧ systemCompletion (⟨fun _ => none, fun _ => none⟩ : MarketState ℕ)
        "S" = "Pending"
    ∧ (invalidate "S" "A"
          (⟨fun _ => none, fun _ => none⟩ : MarketState ℕ)).dirty "S"
        = some true
    ∧ systemCompletion
          (invalidate "S" "A"
            (⟨fun _ => none, fun _ => none⟩ : MarketState ℕ)) "S"
        = "Partial" :=
  ⟨rfl, rfl, rfl, rfl, rfl⟩

/-- The diskcache-based invalidator loop body
(eddn_market_invalidator.py lines 35-42): the key `system + station`
is deleted only when present in the cache. -/
def cacheInvalidate {α : Type} (cache : String → Option α)
    (system station : String) : String → Option α :=
  let cache_key := system ++ station
  if (cache cache_key).isSome then
    fun k => if k = cache_key then none else cache k
  else cache

/-- C4 amended: the diskcache invalidator is a true no-op on unknown
keys, but `invalidate` in market.py deletes the market entry only if
present while setting the per-system dirty flag unconditionally: the
market store is unchanged at other keys and the invalidated key reads
back empty, yet the dirty flag becomes True even when the prior state
was Unknown, so MarkDirty is not restricted to prior-Clean keys. -/
theorem invalidate_amended {α : Type} (system station : String)
    (st : MarketState α) (cache : String → Option α)
    (hc : cache (system ++ station) = none) :
    (invalidate system station st).markets (system, station) = none
    ∧ (∀ k, k ≠ (system, station) →
        (invalidate system station st).markets k = st.markets k)
    ∧ (invalidate system station st).dirty system = some true
    ∧ (∀ s, s ≠ system →
        (invalidate system station st).dirty s = st.dirty s)
    ∧ cacheInvalidate cache system station = cache := by
  refine ⟨?_, ?_, ?_, ?_, ?_⟩
  · show (if (system, station) = (system, station) then _ else _) = _
    rw [if_pos rfl]
  · intro k hk
    show (if k = (system, station) then _ else _) = _
    rw [if_neg hk]
  · show (if system = system then _ else _) = _
    rw [if_pos rfl]
  · intro s hs
    show (if s = system then _ else _) = _
    rw [if_neg hs]
  · show (if (cache (system ++ station)).isSome = true then _ else _)
        = cache
    rw [hc]
    rfl

/-- Witness for C4's amended theorem on the concrete empty store. -/
theorem invalidate_amended_witness :
    ((fun _ => none : String → Option ℕ) ("S" ++ "A") = none)
    ∧ (invalidate "S" "A"
          (⟨fun _ => none, fun _ => none⟩ : MarketState ℕ)).dirty "S"
        = some true
    ∧ cacheInvalidate (fun _ => none : String → Option ℕ) "S" "A"
        = (fun _ => none) :=
  ⟨rfl,
    (invalidate_amended "S" "A"
      (⟨fun _ => none, fun _ => none⟩ : MarketState ℕ)
      (fun _ => none) rfl).2.2.1,
    (invalidate_amended "S" "A"
      (⟨fun _ => none, fun _ => none⟩ : MarketState ℕ)
      (fun _ => none) rfl).2.2.2.2⟩

/-! ## `request_status` completion percentage (market.py lines 318-356)

`request_status` groups the request's systems by their dirty value,
maps the groups to Partial/Complete/Pending counts, and computes
`100 * (Complete / (Complete + Partial + Pending))` — a Python
`ZeroDivisionError` when the request's system list is empty, modelled
as `none`. -/

/-- Count of the request's systems classified with the given label. -/
def completionCount {α : Type} (st : MarketState α)
    (system_names : List String) (label : String) : ℕ :=
  (system_names.filter (fun s => systemCompletion st s = label)).length

/-- The `system_completion_percent` computation of `request_status`:
division by the three counts' sum, `none` on the empty-denominator
`ZeroDivisionError`. -/
def system_completion_percent {α : Type} (st : MarketState α)
    (system_names : List String) : Option ℚ :=
  let comp := completionCount st system_names "Complete"
  let par := completionCount st system_names "Partial"
  let pen := completionCount st system_names "Pending"
  if comp + par + pen = 0 then none
  else some (100 * ((comp : ℚ) / ((comp : ℚ) + (par : ℚ) + (pen : ℚ))))

theorem completion_counts_sum {α : Type} (st : MarketState α) :
    ∀ system_names : List String,
      completionCount st system_names "Complete"
        + completionCount st system_names "Partial"
        + completionCount st system_names "Pending"
        = system_names.length := by
  intro l
  induction l with
  | nil => rfl
  | cons s l ih =>
    unfold completionCount at ih ⊢
    have hs : systemCompletion st s = "Complete"
        ∨ systemCompletion st s = "Partial"
        ∨ systemCompletion st s = "Pending" := by
      unfold systemCompletion
      rcases st.dirty s with - | b
      · simp
      · rcases b <;> simp
    rcases hs with hs | hs | hs <;> simp [List.filter_cons, hs] <;> omega

/-- C10: every system of the request is counted in exactly one of
Complete, Partial, Pending; for a non-empty system list the percentage
is `100 * Complete / total`; for an empty system list the computation
hits a division by zero (modelled `none`) instead of returning a
status. -/
theorem request_status_percent_spec {α : Type} (st : MarketState α)
    (system_names : List String) (hne : system_names ≠ []) :
    completionCount st system_names "Complete"
        + completionCount st system_names "Partial"
        + completionCount st system_names "Pending"
        = system_names.length
    ∧ system_completion_percent st system_names
        = some (100 * ((completionCount st system_names "Complete" : ℚ)
            / (system_names.length : ℚ)))
    ∧ system_completion_percent st [] = none := by
  have hsum := completion_counts_sum st system_names
  refine ⟨hsum, ?_, rfl⟩
  unfold system_completion_percent
  rw [if_neg (by rw [hsum]; simpa using hne)]
  congr 2
  push_cast [← hsum]
  ring

/-- Witness for C10: a request over systems S (dirtied) and T (never
populated): 1 Partial + 1 Pending, percentage 0. -/
theorem request_status_percent_spec_witness :
    (["S", "T"] ≠ ([] : List String))
    ∧ completionCount
          (invalidate "S" "A"
            (⟨fun _ => none, fun _ => none⟩ : MarketState ℕ))
          ["S", "T"] "Complete"
        + completionCount
            (invalidate "S" "A"
              (⟨fun _ => none, fun _ => none⟩ : MarketState ℕ))
            ["S", "T"] "Partial"
        + completionCount
            (invalidate "S" "A"
              (⟨fun _ => none, fun _ => none⟩ : MarketState ℕ))
            ["S", "T"] "Pending"
        = 2 :=
  ⟨by simp,
    (request_status_percent_spec
        (invalidate "S" "A"
          (⟨fun _ => none, fun _ => none⟩ : MarketState ℕ))
        ["S", "T"] (by simp)).1⟩

/-! ## `request_near` (market.py lines 276-315)

`request_near` groups the fetched systems by their dirty value, takes
`dirty.get(True, []) + dirty.get(None, [])`, sorts by distance,
partitions into batches of 10 and dispatches one task per batch,
recording the batch index as the task's "shell".  No shell bucketing
happens: `equal_volume_shells` and `_which_bin` are never called. -/

/-- A system record as returned by `systems_in_sphere_raw`: its name
and its distance from the query origin. -/
structure SystemRec where
  name : String
  distance : ℚ
deriving DecidableEq

/-- The systems needing update: `dirty.get(True, []) + dirty.get(None,
[])` after `groupby(_dirty, systems)` — first the dirty systems, then
the never-populated ones, each group in fetch order. -/
def needUpdate {α : Type} (st : MarketState α)
    (systems : List SystemRec) : List SystemRec :=
  systems.filter (fun s => st.dirty s.name = some true)
    ++ systems.filter (fun s => st.dirty s.name = none)

/-- Python's stable `sorted(need_update, key=lambda x: x["distance"])`,
embedded as a stable insertion sort. -/
def sortByDistance (l : List SystemRec) : List SystemRec :=
  l.insertionSort (fun a b => a.distance ≤ b.distance)

/-- Fuel-driven worker for `partition_all`: emit `take n` chunks while
fuel and input last. -/
def partition_allGo {α : Type} (n : ℕ) : ℕ → List α → List (List α)
  | _, [] => []
  | 0, l => [l]
  | fuel + 1, l => l.take n :: partition_allGo n fuel (l.drop n)

/-- cytoolz `partition_all(n, seq)`: chunks of size `n`, the last chunk
possibly shorter. -/
def partition_all {α : Type} (n : ℕ) (l : List α) : List (List α) :=
  partition_allGo n l.length l

/-- The batches `task_systems` that `request_near` dispatches one
population task for each of. -/
def request_near_batches {α : Type} (st : MarketState α)
    (systems : List SystemRec) : List (List SystemRec) :=
  partition_all 10 (sortByDistance (needUpdate st systems))

/-- The `(shell, systems)` task records of `request_near`: the "shell"
stored per task is just the batch's ordinal from `enumerate`. -/
def request_near_tasks {α : Type} (st : MarketState α)
    (systems : List SystemRec) : List (ℕ × List SystemRec) :=
  (request_near_batches st systems).enum

theorem partition_allGo_flatten {α : Type} (n : ℕ) (hn : 0 < n) :
    ∀ (fuel : ℕ) (l : List α), l.length ≤ fuel →
      (partition_allGo n fuel l).flatten = l := by
  intro fuel
  induction fuel with
  | zero =>
    intro l hl
    have : l = [] := List.eq_nil_of_length_eq_zero (Nat.le_zero.mp hl)
    subst this
    rfl
  | succ fuel ih =>
    intro l hl
    cases l with
    | nil => rfl
    | cons x xs =>
      show ((x :: xs).take n :: partition_allGo n fuel
          ((x :: xs).drop n)).flatten = x :: xs
      rw [List.flatten_cons,
        ih _ (by
          rw [List.length_drop, List.length_cons]
          rw [List.length_cons] at hl
          omega),
        List.take_append_drop]

theorem partition_allGo_mem {α : Type} (n : ℕ) (hn : 0 < n) :
    ∀ (fuel : ℕ) (l : List α), l.length ≤ fuel →
      ∀ b ∈ partition_allGo n fuel l, b ≠ [] ∧ b.length ≤ n := by
  intro fuel
  induction fuel with
  | zero =>
    intro l hl
    have : l = [] := List.eq_nil_of_length_eq_zero (Nat.le_zero.mp hl)
    subst this
    intro b hb
    simp [partition_allGo] at hb
  | succ fuel ih =>
    intro l hl
    cases l with
    | nil => intro b hb; simp [partition_allGo] at hb
    | cons x xs =>
      intro b hb
      rcases List.mem_cons.mp hb with hb | hb
      · subst hb
        refine ⟨?_, ?_⟩
        · cases n with
          | zero => omega
          | succ m => simp
        · rw [List.length_take]
          exact min_le_left _ _
      · exact ih _ (by
          rw [List.length_drop, List.length_cons]
          rw [List.length_cons] at hl
          omega) b hb

theorem needUpdate_perm {α : Type} (st : MarketState α) :
    ∀ systems : List SystemRec,
      (needUpdate st systems).Perm
        (systems.filter (fun s => ¬ st.dirty s.name = some false)) := by
  intro systems
  induction systems with
  | nil => rfl
  | cons s l ih =>
    unfold needUpdate at ih ⊢
    simp only [decide_not] at ih ⊢
    rcases h : st.dirty s.name with - | b
    · simp [List.filter_cons, h]
      exact (List.perm_middle).trans (ih.cons s)
    · rcases b with - | -
      · simp [List.filter_cons, h]
        exact ih
      · simp [List.filter_cons, h]
        exact ih

instance : IsTotal SystemRec (fun a b => a.distance ≤ b.distance) :=
  ⟨fun a b => le_total a.distance b.distance⟩

instance : IsTrans SystemRec (fun a b => a.distance ≤ b.distance) :=
  ⟨fun _ _ _ hab hbc => le_trans hab hbc⟩

/-- C6 counterexample: two never-populated systems A (distance 1) and
B (distance 20), initial radius 15.  `request_near` puts both in one
batch — one population task — although no single shell of the planner
contains both distances, so dispatch is not per-shell as claimed. -/
theorem request_near_shell_counterexample :
    request_near_batches
        (⟨fun _ => none, fun _ => none⟩ : MarketState ℕ)
        [⟨"A", 1⟩, ⟨"B", 20⟩]
      = [[⟨"A", 1⟩, ⟨"B", 20⟩]]
    ∧ ¬ ∃ i : ℕ, inShellCode 15 i 1 ∧ inShellCode 15 i 20 := by
  constructor
  · decide
  · rintro ⟨i, ⟨hAlo, -⟩, ⟨-, hBhi⟩⟩
    match i with
    | 0 =>
      have h1 : radii 15 (0 + 1) = 15 := by simp [radii]
      rw [h1] at hBhi
      norm_num at hBhi
    | k + 1 =>
      have h15 : radii 15 1 = 15 := by simp [radii]
      have hmono : radii 15 1 ≤ radii 15 (k + 1) :=
        (radii_strictMono 15 (by norm_num)).monotone (by omega)
      rw [h15] at hmono
      have h151 : (15 : ℝ) ≤ 1 := le_trans hmono hAlo
      norm_num at h151

/-- C6 amended: `request_near` selects exactly the systems whose dirty
state is not False (dirty or never populated), sorts them nearest-first
globally — not per shell — and splits them into batches of at most 10,
each batch non-empty, dispatching one task per batch; the recorded
"shell" is just the batch ordinal and no shell bucketing occurs. -/
theorem request_near_batches_spec {α : Type} (st : MarketState α)
    (systems : List SystemRec) :
    (request_near_batches st systems).flatten
        = sortByDistance (needUpdate st systems)
    ∧ (request_near_batches st systems).flatten.Perm
        (systems.filter (fun s => ¬ st.dirty s.name = some false))
    ∧ List.Sorted (fun a b : SystemRec => a.distance ≤ b.distance)
        (request_near_batches st systems).flatten
    ∧ (∀ b ∈ request_near_batches st systems, b ≠ [] ∧ b.length ≤ 10)
    ∧ request_near_tasks st systems
        = (request_near_batches st systems).enum := by
  have hflat : (request_near_batches st systems).flatten
      = sortByDistance (needUpdate st systems) := by
    unfold request_near_batches partition_all
    exact partition_allGo_flatten 10 (by norm_num) _ _ (le_refl _)
  refine ⟨hflat, ?_, ?_, ?_, rfl⟩
  · rw [hflat]
    unfold sortByDistance
    exact (List.perm_insertionSort _ _).trans (needUpdate_perm st systems)
  · rw [hflat]
    unfold sortByDistance
    exact List.sorted_insertionSort _ _
  · intro b hb
    unfold request_near_batches partition_all at hb
    exact partition_allGo_mem 10 (by norm_num) _ _ (le_refl _) b hb

/-! ## `hypothetical_sale` (project/main.py lines 43-65)

`hypothetical_sale(cargo, market)` builds `by_name` (a dict keyed by
commodity name, later entries overwriting earlier ones), collects a
match with `revenue = sellPrice * quantity` for every cargo entry whose
name is in `by_name`, and returns the total, the matches sorted by
sellPrice descending, and the missing names. -/

/-- A commodity line of a market snapshot. -/
structure Commodity where
  name : String
  sellPrice : ℕ
  buyPrice : ℕ
  stock : ℕ
  demand : ℕ
deriving DecidableEq

/-- The `by_name` dict: `{c["name"]: c for c in market_commodities}` —
the LAST commodity with a given name wins, as in a Python dict
comprehension. -/
def by_name (commodities : List Commodity) (n : String) :
    Option Commodity :=
  commodities.foldl (fun acc c => if c.name = n then some c else acc) none

/-- One entry of the `matches` list built by `hypothetical_sale`. -/
structure SaleMatch where
  name : String
  sellPrice : ℕ
  demand : ℕ
  quantity : ℕ
  revenue : ℕ
deriving DecidableEq

/-- The result dict of `hypothetical_sale`. -/
structure Sale where
  total : ℕ
  matched : List SaleMatch
  missing : List String
deriving DecidableEq

/-- The `matches` loop of `hypothetical_sale`: for each cargo entry
whose name is in `by_name`, a match with `revenue = sellPrice *
quantity`. -/
def saleMatches (cargo : List (String × ℕ))
    (commodities : List Commodity) : List SaleMatch :=
  cargo.filterMap (fun p =>
    (by_name commodities p.1).map
      (fun c => ⟨p.1, c.sellPrice, c.demand, p.2, c.sellPrice * p.2⟩))

/-- `hypothetical_sale`: total revenue, matches sorted by sellPrice
descending (Python's stable `sorted(..., reverse=True)`), and the
cargo names absent from `by_name`. -/
def hypothetical_sale (cargo : List (String × ℕ))
    (commodities : List Commodity) : Sale where
  total := ((saleMatches cargo commodities).map SaleMatch.revenue).sum
  matched := (saleMatches cargo commodities).insertionSort
    (fun a b => b.sellPrice ≤ a.sellPrice)
  missing := (cargo.filter
    (fun p => by_name commodities p.1 = none)).map Prod.fst

theorem saleMatches_map_name (cargo : List (String × ℕ))
    (commodities : List Commodity) :
    (saleMatches cargo commodities).map SaleMatch.name
      = (cargo.filter
          (fun p => (by_name commodities p.1).isSome)).map Prod.fst := by
  induction cargo with
  | nil => rfl
  | cons p t ih =>
    unfold saleMatches at ih ⊢
    rcases h : by_name commodities p.1 with - | c <;>
      simp [List.filterMap_cons, List.filter_cons, h, ih]

theorem saleMatches_revenue (cargo : List (String × ℕ))
    (commodities : List Commodity) :
    ∀ m ∈ saleMatches cargo commodities,
      m.revenue = m.sellPrice * m.quantity := by
  intro m hm
  rcases List.mem_filterMap.mp hm with ⟨p, -, hp⟩
  rcases ho : by_name commodities p.1 with - | c
  · rw [ho] at hp
    simp at hp
  · rw [ho] at hp
    simp only [Option.map_some', Option.some.injEq] at hp
    subst hp
    rfl

theorem mem_map_fst_filter_split {β : Type} (pred : String → Bool) :
    ∀ (l : List (String × β)) (n : String),
      ((n ∈ (l.filter (fun p => pred p.1)).map Prod.fst
          ∨ n ∈ (l.filter (fun p => !(pred p.1))).map Prod.fst)
        ↔ n ∈ l.map Prod.fst)
      ∧ (n ∈ (l.filter (fun p => pred p.1)).map Prod.fst → pred n = true)
      ∧ (n ∈ (l.filter (fun p => !(pred p.1))).map Prod.fst
          → pred n = false) := by
  intro l n
  induction l with
  | nil => simp
  | cons x t ih =>
    rcases hx : pred x.1 with - | -
    · simp only [List.filter_cons, hx, Bool.not_false, if_true, if_false,
        Bool.false_eq_true, List.map_cons, List.mem_cons]
      refine ⟨?_, ?_, ?_⟩
      · constructor
        · rintro (h | (h | h))
          · exact Or.inr (ih.1.mp (Or.inl h))
          · exact Or.inl h
          · exact Or.inr (ih.1.mp (Or.inr h))
        · rintro (h | h)
          · exact Or.inr (Or.inl h)
          · rcases ih.1.mpr h with h' | h'
            · exact Or.inl h'
            · exact Or.inr (Or.inr h')
      · exact ih.2.1
      · rintro (h | h)
        · rw [h]; exact hx
        · exact ih.2.2 h
    · simp only [List.filter_cons, hx, Bool.not_true, if_true, if_false,
        Bool.true_eq_false, List.map_cons, List.mem_cons]
      refine ⟨?_, ?_, ?_⟩
      · constructor
        · rintro ((h | h) | h)
          · exact Or.inl h
          · exact Or.inr (ih.1.mp (Or.inl h))
          · exact Or.inr (ih.1.mp (Or.inr h))
        · rintro (h | h)
          · exact Or.inl (Or.inl h)
          · rcases ih.1.mpr h with h' | h'
            · exact Or.inl (Or.inr h')
            · exact Or.inr h'
      · rintro (h | h)
        · rw [h]; exact hx
        · exact ih.2.1 h
      · exact ih.2.2

/-- C5: matched and missing partition the manifest's names — their
union is the manifest's key set and they are disjoint — and the total
equals the sum of `sellPrice * quantity` over the matched entries. -/
theorem hypothetical_sale_partition (cargo : List (String × ℕ))
    (commodities : List Commodity) :
    (∀ n, (n ∈ (hypothetical_sale cargo commodities).matched.map
            SaleMatch.name
          ∨ n ∈ (hypothetical_sale cargo commodities).missing)
        ↔ n ∈ cargo.map Prod.fst)
    ∧ (∀ n, n ∈ (hypothetical_sale cargo commodities).matched.map
          SaleMatch.name
        → n ∉ (hypothetical_sale cargo commodities).missing)
    ∧ (hypothetical_sale cargo commodities).total
        = ((hypothetical_sale cargo commodities).matched.map
            (fun m => m.sellPrice * m.quantity)).sum := by
  have hperm : ((hypothetical_sale cargo commodities).matched).Perm
      (saleMatches cargo commodities) :=
    List.perm_insertionSort _ _
  have hnames : ∀ n,
      n ∈ (hypothetical_sale cargo commodities).matched.map SaleMatch.name
        ↔ n ∈ (cargo.filter
            (fun p => (by_name commodities p.1).isSome)).map Prod.fst := by
    intro n
    rw [(hperm.map SaleMatch.name).mem_iff, saleMatches_map_name]
  have hmiss : (hypothetical_sale cargo commodities).missing
      = (cargo.filter
          (fun p => !((by_name commodities p.1).isSome))).map Prod.fst := by
    show (cargo.filter
        (fun p => by_name commodities p.1 = none)).map Prod.fst = _
    congr 1
    apply List.filter_congr
    intro x _
    cases by_name commodities x.1 <;> simp
  have split := fun n =>
    mem_map_fst_filter_split
      (fun m => (by_name commodities m).isSome) cargo n
  refine ⟨?_, ?_, ?_⟩
  · intro n
    rw [hmiss]
    constructor
    · rintro (h | h)
      · exact (split n).1.mp (Or.inl ((hnames n).mp h))
      · exact (split n).1.mp (Or.inr h)
    · intro h
      rcases (split n).1.mpr h with h' | h'
      · exact Or.inl ((hnames n).mpr h')
      · exact Or.inr h'
  · intro n h hmem
    have h1 := (split n).2.1 ((hnames n).mp h)
    rw [hmiss] at hmem
    have h2 := (split n).2.2 hmem
    rw [h1] at h2
    exact absurd h2 (by simp)
  · have hs : ((hypothetical_sale cargo commodities).matched.map
        (fun m => m.sellPrice * m.quantity)).sum
        = ((saleMatches cargo commodities).map
            (fun m => m.sellPrice * m.quantity)).sum :=
      (hperm.map _).sum_eq
    rw [hs]
    show ((saleMatches cargo commodities).map SaleMatch.revenue).sum = _
    congr 1
    exact List.map_congr_left
      (fun m hm => saleMatches_revenue cargo commodities m hm)

/-! ## `best_sell_stations` ranking (elite-sell/market.py lines 502-532)

After filtering and digesting, `best_sell_stations` sorts the sale
records with `sorted(sales, key=lambda x: x["sale"]["total"],
reverse=True)` — a stable descending sort on revenue only — and
returns `sales_sorted[:topk]`. -/

/-- A digested sale record as ranked by `best_sell_stations`: the
hypothetical sale's total and the market's jump distance and station. -/
structure SaleCand where
  total : ℕ
  jump_distance : ℚ
  station : String
deriving DecidableEq

instance : IsTotal SaleCand (fun a b => b.total ≤ a.total) :=
  ⟨fun a b => le_total b.total a.total⟩

instance : IsTrans SaleCand (fun a b => b.total ≤ a.total) :=
  ⟨fun _ _ _ hab hbc => le_trans hbc hab⟩

/-- The sort-and-truncate tail of `best_sell_stations`: stable sort by
total descending, then `[:topk]`. -/
def best_sell_stations_rank (sales : List SaleCand) (topk : ℕ) :
    List SaleCand :=
  (sales.insertionSort (fun a b => b.total ≤ a.total)).take topk

/-- C8 counterexample: two candidates with equal revenue, the farther
one (jump distance 10) listed before the nearer one (jump distance 5).
The code keeps input order on the tie, so the output is not sorted by
the claimed revenue-descending-then-distance-ascending rule. -/
theorem best_sell_tiebreak_counterexample :
    best_sell_stations_rank
        [⟨100, 10, "FAR"⟩, ⟨100, 5, "NEAR"⟩] 20
      = [⟨100, 10, "FAR"⟩, ⟨100, 5, "NEAR"⟩]
    ∧ ¬ List.Pairwise
        (fun a b : SaleCand =>
          b.total < a.total
            ∨ (a.total = b.total ∧ a.jump_distance ≤ b.jump_distance))
        (best_sell_stations_rank
          [⟨100, 10, "FAR"⟩, ⟨100, 5, "NEAR"⟩] 20) := by
  constructor
  · decide
  · decide

/-- C8 amended: the ranked list is the stable descending sort on total
revenue truncated to the first `min topk n` entries — ties keep the
candidates' input order, with no jump-distance tie-break; every
returned candidate's revenue is at least that of every candidate left
out. -/
theorem best_sell_stations_rank_spec (sales : List SaleCand)
    (topk : ℕ) :
    (best_sell_stations_rank sales topk
        ++ (sales.insertionSort (fun a b => b.total ≤ a.total)).drop topk
      ).Perm sales
    ∧ List.Sorted (fun a b : SaleCand => b.total ≤ a.total)
        (best_sell_stations_rank sales topk)
    ∧ (∀ a ∈ best_sell_stations_rank sales topk,
        ∀ b ∈ (sales.insertionSort
            (fun a b => b.total ≤ a.total)).drop topk,
          b.total ≤ a.total)
    ∧ (best_sell_stations_rank sales topk).length
        = min topk sales.length := by
  have hsorted : List.Sorted (fun a b : SaleCand => b.total ≤ a.total)
      (sales.insertionSort (fun a b => b.total ≤ a.total)) :=
    List.sorted_insertionSort _ _
  have hperm : (sales.insertionSort
      (fun a b => b.total ≤ a.total)).Perm sales :=
    List.perm_insertionSort _ _
  have hsplit := List.take_append_drop topk
    (sales.insertionSort (fun a b => b.total ≤ a.total))
  refine ⟨?_, ?_, ?_, ?_⟩
  · unfold best_sell_stations_rank
    rw [hsplit]
    exact hperm
  · exact hsorted.sublist (List.take_sublist _ _)
  · intro a ha b hb
    have := (List.pairwise_append.mp (by rw [hsplit]; exact hsorted)).2.2
    exact this a ha b hb
  · unfold best_sell_stations_rank
    rw [List.length_take, hperm.length_eq]

/-! ## Mongo market writes (listener/project/eddn_listener.py lines
20-43 and elite-sell/listener/project/station_dump.py lines 59-76)

The feed consumer upserts with filter `{system, station}`; the
bulk-dump loader upserts with filter `{system, station, source: {$ne:
"eddn"}}`.  Both `$set` every field of the document, so a matched
document is replaced wholesale, and the document a miss inserts is
exactly the `$set` payload. -/

/-- A document of the `market` collection. -/
structure MarketDoc where
  system : String
  station : String
  update_time : ℕ
  commodities : List Commodity
  source : String
deriving DecidableEq

/-- Two documents cover the same `(system, station)` key. -/
def sameKey (a b : MarketDoc) : Prop :=
  a.system = b.system ∧ a.station = b.station

instance (a b : MarketDoc) : Decidable (sameKey a b) := by
  unfold sameKey
  infer_instance

/-- At most one current snapshot per `(system, station)` key. -/
def atMostOnePerKey (db : List MarketDoc) : Prop :=
  db.Pairwise (fun a b => ¬ sameKey a b)

instance (db : List MarketDoc) : Decidable (atMostOnePerKey db) := by
  unfold atMostOnePerKey
  infer_instance

/-- Mongo `update_one(filter, {$set: all fields}, upsert=True)`: the
first matching document is replaced by the `$set` payload; when none
matches, the payload is inserted. -/
def update_one (flt : MarketDoc → Prop) [DecidablePred flt]
    (newDoc : MarketDoc) : List MarketDoc → List MarketDoc
  | [] => [newDoc]
  | d :: ds =>
    if flt d then newDoc :: ds else d :: update_one flt newDoc ds

/-- The feed consumer's `save_to_mongo` write: filter `{system,
station}`, source tag `eddn`. -/
def eddn_save (system station : String) (update_time : ℕ)
    (commodities : List Commodity) (db : List MarketDoc) :
    List MarketDoc :=
  update_one (fun d => d.system = system ∧ d.station = station)
    ⟨system, station, update_time, commodities, "eddn"⟩ db

/-- The bulk-dump loader's `save_to_mongo` write: filter `{system,
station, source: {$ne: "eddn"}}`, source tag `edsm-dump`.  The `$ne`
clause is not an equality, so Mongo's upsert document carries only the
`$set` payload. -/
def dump_save (system station : String) (update_time : ℕ)
    (commodities : List Commodity) (db : List MarketDoc) :
    List MarketDoc :=
  update_one
    (fun d => d.system = system ∧ d.station = station
      ∧ d.source ≠ "eddn")
    ⟨system, station, update_time, commodities, "edsm-dump"⟩ db

/-- C1 counterexample: a feed snapshot for (S, A) at time 5, then a
bulk-dump write for the same key at the strictly newer time 10.  The
dump filter excludes the feed document, so the upsert inserts a second
document for the key: two current snapshots, violating the at-most-one
invariant after a write of the bulk-dump loader. -/
theorem snapshot_invariant_counterexample :
    dump_save "S" "A" 10 [] (eddn_save "S" "A" 5 [] [])
      = [⟨"S", "A", 5, [], "eddn"⟩, ⟨"S", "A", 10, [], "edsm-dump"⟩]
    ∧ ¬ atMostOnePerKey
        (dump_save "S" "A" 10 [] (eddn_save "S" "A" 5 [] [])) := by
  constructor
  · decide
  · decide

theorem mem_update_one (flt : MarketDoc → Prop) [DecidablePred flt]
    (newDoc : MarketDoc) :
    ∀ (db : List MarketDoc) (b : MarketDoc),
      b ∈ update_one flt newDoc db → b ∈ db ∨ b = newDoc := by
  intro db
  induction db with
  | nil =>
    intro b hb
    rcases List.mem_singleton.mp hb with h
    exact Or.inr h
  | cons d ds ih =>
    intro b hb
    unfold update_one at hb
    split at hb
    · rcases List.mem_cons.mp hb with h | h
      · exact Or.inr h
      · exact Or.inl (List.mem_cons_of_mem d h)
    · rcases List.mem_cons.mp hb with h | h
      · exact Or.inl (h ▸ List.mem_cons_self d ds)
      · rcases ih b h with h' | h'
        · exact Or.inl (List.mem_cons_of_mem d h')
        · exact Or.inr h'

theorem update_one_of_no_match (flt : MarketDoc → Prop)
    [DecidablePred flt] (newDoc : MarketDoc) :
    ∀ db : List MarketDoc, (∀ d ∈ db, ¬ flt d) →
      update_one flt newDoc db = db ++ [newDoc] := by
  intro db
  induction db with
  | nil => intro _; rfl
  | cons d ds ih =>
    intro h
    unfold update_one
    rw [if_neg (h d (List.mem_cons_self d ds)),
      ih (fun x hx => h x (List.mem_cons_of_mem d hx))]
    rfl

/-- C1 amended: the feed consumer's write preserves the at-most-one
invariant, and a bulk-dump write never modifies or removes a
feed-sourced document (regardless of timestamps — no timestamp is ever
compared); but when the key's only snapshots are feed-sourced, the
bulk-dump upsert inserts a second document for that key, breaking the
at-most-one invariant. -/
theorem mongo_write_amended (system station : String)
    (t : ℕ) (cs : List Commodity) (db : List MarketDoc) :
    (atMostOnePerKey db →
      atMostOnePerKey (eddn_save system station t cs db))
    ∧ (∀ d ∈ db, d.source = "eddn" →
        d ∈ dump_save system station t cs db)
    ∧ ((∃ d ∈ db, d.system = system ∧ d.station = station)
        → (∀ d ∈ db, d.system = system ∧ d.station = station →
            d.source = "eddn")
        → ¬ atMostOnePerKey (dump_save system station t cs db)) := by
  refine ⟨?_, ?_, ?_⟩
  · intro h
    unfold eddn_save
    induction db with
    | nil => exact List.pairwise_singleton _ _
    | cons d ds ih =>
      unfold update_one
      rcases List.pairwise_cons.mp h with ⟨hd, hds⟩
      split
      · rename_i hflt
        refine List.pairwise_cons.mpr ⟨?_, hds⟩
        intro b hb hkey
        exact hd b hb
          ⟨hflt.1.trans (show system = b.system from hkey.1),
            hflt.2.trans (show station = b.station from hkey.2)⟩
      · rename_i hflt
        refine List.pairwise_cons.mpr ⟨?_, ih hds⟩
        intro b hb
        rcases mem_update_one _ _ ds b hb with h' | h'
        · exact hd b h'
        · subst h'
          intro hkey
          exact hflt ⟨hkey.1, hkey.2⟩
  · intro d hd hsrc
    unfold dump_save
    induction db with
    | nil => simp at hd
    | cons x xs ih =>
      unfold update_one
      rcases List.mem_cons.mp hd with h | h
      · subst h
        split
        · rename_i hflt
          exact absurd hsrc hflt.2.2
        · exact List.mem_cons_self _ _
      · split
        · exact List.mem_cons_of_mem _ h
        · exact List.mem_cons_of_mem _ (ih h)
  · rintro ⟨d, hd, hdkey⟩ hall hmost
    have hno : ∀ x ∈ db,
        ¬ (x.system = system ∧ x.station = station
          ∧ x.source ≠ "eddn") := by
      intro x hx ⟨h1, h2, h3⟩
      exact h3 (hall x hx ⟨h1, h2⟩)
    unfold dump_save at hmost
    rw [update_one_of_no_match _ _ db hno] at hmost
    have := (List.pairwise_append.mp hmost).2.2 d hd
      ⟨system, station, t, cs, "edsm-dump"⟩ (List.mem_singleton.mpr rfl)
    exact this ⟨hdkey.1, hdkey.2⟩

/-! ## Rate-limited fetch layer (market.py lines 120-144 `_get_with_http`
and edsm.py lines 42-67 `_get_raw`)

Both wrappers carry `@retry(stop_max_attempt_number=3)`.  Each attempt
reads the rate headers (defaults 720/720/0/0), computes
`request_interval = rate_reset / rate_limit`, and on a 429 sleeps
`retry_after + 50 * request_interval` before raising for a retry; any
other error status raises with no extra sleep; on success market.py
sleeps the FULL `request_interval`, while edsm.py sleeps
`0.8 * request_interval`. -/

/-- The response metadata an attempt reads: HTTP status and the
X-Rate-Limit-Limit, X-Rate-Limit-Remaining, X-Rate-Limit-Reset and
Retry-After header values (after their integer defaults). -/
structure HttpResponse where
  status : ℕ
  rateLimit : ℕ
  rateRemain : ℕ
  rateReset : ℕ
  retryAfter : ℕ
deriving DecidableEq

/-- Outcome of one attempt: the seconds slept before returning, or the
seconds slept before raising for a retry. -/
inductive AttemptResult where
  | success (sleep : ℚ)
  | failure (sleep : ℚ)
deriving DecidableEq

/-- `request_interval = rate_reset / rate_limit`. -/
def request_interval (r : HttpResponse) : ℚ :=
  (r.rateReset : ℚ) / (r.rateLimit : ℚ)

/-- One attempt of `_get_with_http` (market.py): on 429 sleep
`retry_after + 50 * request_interval` and raise; on another error
status raise with no sleep; on success sleep `request_interval`. -/
def get_with_http_attempt (r : HttpResponse) : AttemptResult :=
  if r.status = 429 then
    .failure ((r.retryAfter : ℚ) + 50 * request_interval r)
  else if 400 ≤ r.status ∧ r.status < 600 then
    .failure 0
  else
    .success (request_interval r)

/-- One attempt of edsm.py `_get_raw`: identical except the success
sleep is `0.8 * request_interval`. -/
def edsm_get_raw_attempt (r : HttpResponse) : AttemptResult :=
  if r.status = 429 then
    .failure ((r.retryAfter : ℚ) + 50 * request_interval r)
  else if 400 ≤ r.status ∧ r.status < 600 then
    .failure 0
  else
    .success ((8 / 10 : ℚ) * request_interval r)

/-- The `@retry(stop_max_attempt_number=3)` wrapper: attempts are made
against successive responses until one succeeds or the budget is
exhausted; returns the number of attempts made. -/
def retryRun (attempt : HttpResponse → AttemptResult) :
    ℕ → List HttpResponse → ℕ
  | 0, _ => 0
  | _, [] => 0
  | budget + 1, r :: rs =>
    match attempt r with
    | .success _ => 1
    | .failure _ => 1 + retryRun attempt budget rs

/-- Attempts made by a retry-wrapped fetch (budget 3). -/
def attempts_used (attempt : HttpResponse → AttemptResult)
    (responses : List HttpResponse) : ℕ :=
  retryRun attempt 3 responses

/-- C9 counterexample: a successful response with rate ceiling 720 and
reset window 720 gives `request_interval = 1`; market.py's
`_get_with_http` then sleeps the full second, not the claimed
`0.8 * request_interval`. -/
theorem fetch_success_sleep_counterexample :
    get_with_http_attempt ⟨200, 720, 720, 720, 0⟩ = .success 1
    ∧ (1 : ℚ) ≠ (8 / 10 : ℚ) * 1 := by
  constructor
  · unfold get_with_http_attempt request_interval
    norm_num
  · norm_num

theorem retryRun_le (attempt : HttpResponse → AttemptResult) :
    ∀ (budget : ℕ) (rs : List HttpResponse),
      retryRun attempt budget rs ≤ budget := by
  intro budget
  induction budget with
  | zero => intro rs; cases rs <;> simp [retryRun]
  | succ b ih =>
    intro rs
    cases rs with
    | nil => simp [retryRun]
    | cons r rs =>
      unfold retryRun
      cases attempt r with
      | success s =>
        show 1 ≤ b + 1
        omega
      | failure s =>
        show 1 + retryRun attempt b rs ≤ b + 1
        have := ih rs
        omega

/-- C9 amended: on a 429 both fetchers sleep `retry_after +
50 * request_interval` (with `request_interval = rate_reset /
rate_limit`) and raise to be retried within a budget of 3 attempts;
on success edsm.py's fetcher sleeps `0.8 * request_interval` but
market.py's `_get_with_http` sleeps the full `request_interval`. -/
theorem fetch_layer_spec (r : HttpResponse)
    (responses : List HttpResponse) :
    (r.status = 429 →
      get_with_http_attempt r
          = .failure ((r.retryAfter : ℚ) + 50 * request_interval r)
        ∧ edsm_get_raw_attempt r
          = .failure ((r.retryAfter : ℚ) + 50 * request_interval r))
    ∧ (r.status ≠ 429 → ¬ (400 ≤ r.status ∧ r.status < 600) →
      get_with_http_attempt r = .success (request_interval r)
        ∧ edsm_get_raw_attempt r
          = .success ((8 / 10 : ℚ) * request_interval r))
    ∧ attempts_used get_with_http_attempt responses ≤ 3
    ∧ attempts_used edsm_get_raw_attempt responses ≤ 3 := by
  refine ⟨?_, ?_, ?_, ?_⟩
  · intro h429
    constructor
    · unfold get_with_http_attempt
      rw [if_pos h429]
    · unfold edsm_get_raw_attempt
      rw [if_pos h429]
  · intro h429 herr
    constructor
    · unfold get_with_http_attempt
      rw [if_neg h429, if_neg herr]
    · unfold edsm_get_raw_attempt
      rw [if_neg h429, if_neg herr]
  · exact retryRun_le get_with_http_attempt 3 responses
  · exact retryRun_le edsm_get_raw_attempt 3 responses

end EliteScripts
